import Mathlib

/-!
Shallow embedding of `monitor_travelodge.py`.

Covered here, translated from the source:
* `GBP_RE` (line 13) and `extract_gbp_amounts` (lines 159-166): the regex
  `£\s*([0-9]{1,5}(?:\.[0-9]{2})?)` scanned with `re.finditer`, numeric
  parse, and `sorted({round(v, 2) for v in vals})`;
* `choose_best_price` (lines 168-180);
* `extract_price_from_rate_button` (lines 16-48) and
  `find_saver_rate_price` (lines 51-61);
* `append_history` (lines 268-274) and the tail of `main` (lines 301-329):
  history append, the `SystemExit(2)` path, the two alert rules, and the
  state update.

Python floats are modelled as rationals (every amount the program handles
has at most two decimal digits, so float rounding artifacts are immaterial
to the claims); Python strings are `List Char` where character-level
scanning matters.  Browser/network I/O (`fetch_price`'s Playwright calls,
`telegram_send`) stays outside the embedding; the pure post-processing of
the fetched text is embedded.
-/

/-- Python `\s` restricted to the ASCII range (the characters that occur in
the scanned page text). -/
def isPySpace (c : Char) : Bool :=
  c == ' ' || c == '\t' || c == '\n' || c == '\r' || c == '\x0b' || c == '\x0c'

/-- Numeric value of a digit string, used to model Python `float` applied to
the digit groups produced by `GBP_RE`. -/
def natFromDigits (l : List Char) : ℕ :=
  l.foldl (fun n c => 10 * n + (c.toNat - 48)) 0

/-- The optional `(?:\.[0-9]{2})?` tail of `GBP_RE`: succeeds when the text
ahead starts with a dot followed by two digits. -/
def fracTail (l : List Char) : Option (Char × Char) :=
  match l with
  | c :: a :: b :: _ =>
      if c = '.' ∧ a.isDigit ∧ b.isDigit then some (a, b) else none
  | _ => none

/-- One attempt of `GBP_RE` directly after a `£` sign: greedy `\s*`, then a
greedy run of one to five digits, then the optional two-digit decimal tail.
Returns the captured group together with the number of characters consumed
after the `£`.  (For this pattern greedy matching needs no backtracking: a
space can never stand in for a digit and a digit never for the dot.) -/
def matchAfterPound (cs : List Char) : Option (List Char × ℕ) :=
  let sp := cs.takeWhile isPySpace
  let cs1 := cs.dropWhile isPySpace
  let ds := (cs1.take 5).takeWhile Char.isDigit
  if ds.isEmpty then none
  else
    match fracTail (cs1.drop ds.length) with
    | some (a, b) => some (ds ++ ['.', a, b], sp.length + ds.length + 3)
    | none => some (ds, sp.length + ds.length)

/-- `GBP_RE.finditer`: scan left to right; at each `£` try a match, and on
success resume after the consumed span (matches are non-overlapping).
`re.I` is irrelevant: the pattern has no cased letters. -/
def findMatches : List Char → List (List Char)
  | [] => []
  | c :: cs =>
    if c = '£' then
      match matchAfterPound cs with
      | some (g, k) => g :: findMatches (cs.drop k)
      | none => findMatches cs
    else findMatches cs
termination_by l => l.length
decreasing_by
  all_goals simp [List.length_drop]
  all_goals omega

/-- Python `float(...)` restricted to the shapes a `GBP_RE` group can have
(`digits` or `digits.digits`); anything else raises, modelled as `none`
(the `except ValueError: pass` in `extract_gbp_amounts`). -/
def pyFloat? (s : List Char) : Option ℚ :=
  let ip := s.takeWhile (fun c => c ≠ '.')
  match s.dropWhile (fun c => c ≠ '.') with
  | [] =>
      if !ip.isEmpty && ip.all Char.isDigit then some (natFromDigits ip) else none
  | '.' :: fp =>
      if !ip.isEmpty && ip.all Char.isDigit && !fp.isEmpty && fp.all Char.isDigit then
        some ((natFromDigits ip : ℚ) + (natFromDigits fp : ℚ) / (10 : ℚ) ^ fp.length)
      else none
  | _ => none

/-- Python `round` to an integer: round half to even (banker's rounding). -/
def roundHalfEven (q : ℚ) : ℤ :=
  let f := ⌊q⌋
  let r := q - (f : ℚ)
  if r < 1 / 2 then f
  else if 1 / 2 < r then f + 1
  else if f % 2 = 0 then f else f + 1

/-- Python `round(v, 2)`. -/
def round2 (q : ℚ) : ℚ := (roundHalfEven (q * 100) : ℚ) / 100

/-- The raw value list of `extract_gbp_amounts` before post-processing: the
values of all regex matches, parse failures silently dropped (the `vals`
list of lines 160-165). -/
def gbpRawValues (cs : List Char) : List ℚ :=
  (findMatches cs).filterMap pyFloat?

/-- Python `sorted({round(v, 2) for v in vals})`: round each value to two
decimals, deduplicate, and list the distinct values in ascending order. -/
def sorted_round_set (l : List ℚ) : List ℚ :=
  List.insertionSort (· ≤ ·) ((l.map round2).dedup)

/-- `extract_gbp_amounts` (lines 159-166).  The argument is optional because
the body guards with `text or ""`. -/
def extract_gbp_amounts (text : Option (List Char)) : List ℚ :=
  sorted_round_set (gbpRawValues (text.getD []))

/-- The pure post-processing of `fetch_price` (lines 230-231): scan both the
rendered body text and the raw page content, then
`sorted({round(v, 2) for v in amounts})`. -/
def fetchAmounts (bodyText content : List Char) : List ℚ :=
  sorted_round_set
    (extract_gbp_amounts (some bodyText) ++ extract_gbp_amounts (some content))

/-- Python `min(xs, key=f)` on a non-empty list `x :: xs`: fold that replaces
the current best only on a strictly smaller key, so the first element with
the minimal key wins. -/
def pyMinKeyFold (f : ℚ → ℚ) (x : ℚ) (xs : List ℚ) : ℚ :=
  xs.foldl (fun b a => if f a < f b then a else b) x

/-- Python `max(xs)` on a non-empty list `x :: xs`: fold that replaces the
current best only on a strictly larger value. -/
def pyMaxFold (x : ℚ) (xs : List ℚ) : ℚ :=
  xs.foldl (fun b a => if b < a then a else b) x

/-- Python `max(amts)` guarded by `if amts:`. -/
def pyMaxList : List ℚ → Option ℚ
  | [] => none
  | x :: xs => some (pyMaxFold x xs)

/-- `choose_best_price` (lines 168-180). -/
def choose_best_price (amounts : List ℚ) (last_price expected : Option ℚ) :
    Option ℚ :=
  match amounts with
  | [] => none
  | x :: xs =>
    match last_price with
    | some lp => some (pyMinKeyFold (fun y => |y - lp|) x xs)
    | none =>
      match expected with
      | some e => some (pyMinKeyFold (fun y => |y - e|) x xs)
      | none => some (pyMaxFold x xs)

/-- Python `str.strip()` on the ASCII whitespace range. -/
def pyStrip (l : List Char) : List Char :=
  ((l.dropWhile isPySpace).reverse.dropWhile isPySpace).reverse

/-- Python `str.isdigit()` on the ASCII range: non-empty and all digits. -/
def pyIsDigit (l : List Char) : Bool :=
  !l.isEmpty && l.all Char.isDigit

/-- Python `float(f"{int_part}.{dec_part}")` for digit strings. -/
def splitValue (ip dp : List Char) : ℚ :=
  (natFromDigits ip : ℚ) + (natFromDigits dp : ℚ) / (10 : ℚ) ^ dp.length

/-- A rate button as `extract_price_from_rate_button` observes it:
`rateInt`/`rateDec` are the inner texts of the first `.rate-int` and
`.rate-dec` descendants (`none` when the locator count is 0), `innerText`
is the button's rendered text, and `textContent` is
`el => el.textContent || ''`.  Playwright timeouts are outside the
embedding: reads are modelled as pure. -/
structure Candidate where
  rateInt : Option (List Char)
  rateDec : Option (List Char)
  innerText : List Char
  textContent : List Char
deriving DecidableEq

/-- Strategy 1 of `extract_price_from_rate_button` (lines 18-27): the split
spans.  `none` both when a span is absent and when a stripped text is not
all digits (the inner `if` simply falls through). -/
def splitStrategy (btn : Candidate) : Option ℚ :=
  match btn.rateInt, btn.rateDec with
  | some i, some d =>
    let ip := pyStrip i
    let dp := pyStrip d
    if pyIsDigit ip && pyIsDigit dp then some (splitValue ip dp) else none
  | _, _ => none

/-- Strategies 2 and 3 of `extract_price_from_rate_button` (lines 30-46):
scan a text for amounts and take the maximum if any were found. -/
def textStrategy (txt : List Char) : Option ℚ :=
  pyMaxList (extract_gbp_amounts (some txt))

/-- `extract_price_from_rate_button` (lines 16-48): split spans, then the
rendered text, then the raw `textContent`, first success wins. -/
def extract_price_from_rate_button (btn : Candidate) : Option ℚ :=
  match splitStrategy btn with
  | some v => some v
  | none =>
    match textStrategy btn.innerText with
    | some v => some v
    | none => textStrategy btn.textContent

/-- `find_saver_rate_price` (lines 51-61): the input is the page's list of
`button[data-rate-plan-code="SAVER"]` nodes in DOM order; the code reads
only `.first` of that locator and returns `None` when the count is 0.
(The `wait_for`/timeout handling is real-time behaviour outside the
embedding.) -/
def find_saver_rate_price : List Candidate → Option ℚ
  | [] => none
  | btn :: _ => extract_price_from_rate_button btn

/-- Modelled from the spec (§4.2): the resolver the spec describes, which
"tries candidates in caller-supplied priority order and returns the first
non-null result".  Stated only for comparison against
`find_saver_rate_price`. -/
def resolverSpecOrder (cands : List Candidate) : Option ℚ :=
  (cands.filterMap extract_price_from_rate_button).head?

/-- Decimal digit string of a natural number, least fuel first; used by the
`f"{x:.2f}"` model. -/
def natStrChars : ℕ → ℕ → List Char
  | 0, _ => []
  | fuel + 1, n =>
    if n = 0 then [] else natStrChars fuel (n / 10) ++ [Char.ofNat (48 + n % 10)]

/-- Decimal rendering of a natural number. -/
def natStr (n : ℕ) : List Char :=
  if n = 0 then ['0'] else natStrChars (n + 1) n

/-- Two-digit zero-padded rendering (the cents of `f"{x:.2f}"`). -/
def pad2 (n : ℕ) : List Char :=
  if n < 10 then '0' :: natStr n else natStr n

/-- Python `f"{q:.2f}"`, faithful for the non-negative amounts the program
handles (round half to even at the second decimal, then fixed two-decimal
rendering). -/
def fmt2 (q : ℚ) : String :=
  let m := roundHalfEven (q * 100)
  let sign : List Char := if m < 0 then ['-'] else []
  let a := m.natAbs
  String.mk (sign ++ natStr (a / 100) ++ '.' :: pad2 (a % 100))

/-- The price column of `append_history`: `"" if price is None else
f"{price:.2f}"`. -/
def fmtPrice : Option ℚ → String
  | none => ""
  | some q => fmt2 q

/-- `append_history` (lines 268-274), as the list of CSV rows the call
appends to the file: a header row when the file did not yet exist, then
exactly one data row. -/
def append_history (fileExists : Bool) (ts_iso : String) (price : Option ℚ)
    (amounts : List ℚ) (url : String) : List (List String) :=
  (if fileExists then []
   else [["timestamp_utc", "chosen_price_gbp", "all_gbp_amounts_found", "url"]]) ++
  [[ts_iso, fmtPrice price, String.intercalate "," (amounts.map fmt2), url]]

/-- The persisted state as the program reads and writes it: `load_state`
yields a JSON object, of which `main` reads `last_price_gbp` (line 291) and
writes `last_price_gbp` and `last_checked_utc` (lines 322-323). -/
structure MonitorState where
  last_price_gbp : Option ℚ
  last_checked_utc : Option String
deriving DecidableEq

/-- One entry of `alert_reasons` (lines 311-319); each constructor carries
exactly the data interpolated into the corresponding f-string. -/
inductive AlertReason where
  | belowTarget (chosen target : ℚ)
  | priceDrop (prior chosen pct : ℚ)
deriving DecidableEq

/-- Everything observable about one run of the tail of `main`: the
`SystemExit` code if any, the alert reasons, the state that is persisted
(`newState` equals the prior state when `save_state` is never reached), and
the CSV rows appended to the history file. -/
structure CheckOutcome where
  exitCode : Option ℕ
  alerts : List AlertReason
  newState : MonitorState
  historyRows : List (List String)
deriving DecidableEq

/-- Lines 313-314 of `main`: the target rule,
`if args.target is not None and chosen <= args.target`. -/
def targetAlerts (c : ℚ) (target : Option ℚ) : List AlertReason :=
  match target with
  | some t => if c ≤ t then [.belowTarget c t] else []
  | none => []

/-- Lines 316-319 of `main`: the drop rule,
`if last_price is not None and last_price > 0` followed by
`drop_pct = (last_price - chosen) / last_price * 100.0` and
`if drop_pct >= args.drop_pct`. -/
def dropAlerts (c : ℚ) (lastPrice : Option ℚ) (thr : ℚ) : List AlertReason :=
  match lastPrice with
  | some lp =>
    if 0 < lp then
      if thr ≤ (lp - c) / lp * 100 then [.priceDrop lp c ((lp - c) / lp * 100)]
      else []
    else []
  | none => []

/-- Lines 290-329 of `main` after `fetch_price`/`choose_best_price` have
produced `chosen`: append the history row; on `chosen is None` print the
error and `raise SystemExit(2)` (state file untouched); otherwise evaluate
the target rule, then the drop rule, then overwrite the state. -/
def runCheck (state : MonitorState) (chosen : Option ℚ) (target : Option ℚ)
    (dropPctThreshold : ℚ) (ts : String) (historyExists : Bool)
    (amounts : List ℚ) (url : String) : CheckOutcome :=
  let rows := append_history historyExists ts chosen amounts url
  match chosen with
  | none =>
    { exitCode := some 2, alerts := [], newState := state, historyRows := rows }
  | some c =>
    { exitCode := none
      alerts := targetAlerts c target ++ dropAlerts c state.last_price_gbp dropPctThreshold
      newState := { last_price_gbp := some c, last_checked_utc := some ts }
      historyRows := rows }

/-! ## Helper lemmas about the Python `min(key=...)` / `max` folds -/

theorem pyMinKeyFold_cons (f : ℚ → ℚ) (x a : ℚ) (xs : List ℚ) :
    pyMinKeyFold f x (a :: xs) = pyMinKeyFold f (if f a < f x then a else x) xs := rfl

theorem pyMaxFold_cons (x a : ℚ) (xs : List ℚ) :
    pyMaxFold x (a :: xs) = pyMaxFold (if x < a then a else x) xs := rfl

theorem pyMinKeyFold_mem (f : ℚ → ℚ) :
    ∀ (xs : List ℚ) (x : ℚ), pyMinKeyFold f x xs ∈ x :: xs := by
  intro xs
  induction xs with
  | nil => intro x; simp [pyMinKeyFold]
  | cons a xs ih =>
    intro x
    rw [pyMinKeyFold_cons]
    by_cases hc : f a < f x
    · rw [if_pos hc]
      rcases List.mem_cons.mp (ih a) with h1 | h1
      · rw [h1]; exact List.mem_cons_of_mem _ (List.mem_cons_self _ _)
      · exact List.mem_cons_of_mem _ (List.mem_cons_of_mem _ h1)
    · rw [if_neg hc]
      rcases List.mem_cons.mp (ih x) with h1 | h1
      · rw [h1]; exact List.mem_cons_self _ _
      · exact List.mem_cons_of_mem _ (List.mem_cons_of_mem _ h1)

theorem pyMinKeyFold_le (f : ℚ → ℚ) :
    ∀ (xs : List ℚ) (x : ℚ), ∀ a ∈ x :: xs, f (pyMinKeyFold f x xs) ≤ f a := by
  intro xs
  induction xs with
  | nil =>
    intro x a ha
    have hax : a = x := by simpa using ha
    rw [hax]
    simp [pyMinKeyFold]
  | cons b xs ih =>
    intro x a ha
    rw [pyMinKeyFold_cons]
    by_cases hc : f b < f x
    · rw [if_pos hc]
      rcases List.mem_cons.mp ha with h1 | h1
      · rw [h1]
        exact le_trans (ih b b (List.mem_cons_self _ _)) (le_of_lt hc)
      · exact ih b a h1
    · rw [if_neg hc]
      rcases List.mem_cons.mp ha with h1 | h1
      · rw [h1]; exact ih x x (List.mem_cons_self _ _)
      · rcases List.mem_cons.mp h1 with h2 | h2
        · rw [h2]
          exact le_trans (ih x x (List.mem_cons_self _ _)) (le_of_not_lt hc)
        · exact ih x a (List.mem_cons_of_mem _ h2)

theorem pyMinKeyFold_tie (f : ℚ → ℚ) :
    ∀ (xs : List ℚ) (x : ℚ), (x :: xs).Sorted (· ≤ ·) →
      ∀ a ∈ x :: xs, f a = f (pyMinKeyFold f x xs) → pyMinKeyFold f x xs ≤ a := by
  intro xs
  induction xs with
  | nil =>
    intro x _ a ha _
    have hax : a = x := by simpa using ha
    rw [hax]
    simp [pyMinKeyFold]
  | cons b xs ih =>
    intro x hs a ha heq
    rcases List.sorted_cons.mp hs with ⟨hxall, hbxs⟩
    rw [pyMinKeyFold_cons] at heq ⊢
    by_cases hc : f b < f x
    · rw [if_pos hc] at heq ⊢
      rcases List.mem_cons.mp ha with h1 | h1
      · exfalso
        have hle := pyMinKeyFold_le f xs b b (List.mem_cons_self _ _)
        rw [h1] at heq
        rw [← heq] at hle
        exact absurd (lt_of_le_of_lt hle hc) (lt_irrefl _)
      · exact ih b hbxs a h1 heq
    · rw [if_neg hc] at heq ⊢
      have hsx : (x :: xs).Sorted (· ≤ ·) :=
        List.sorted_cons.mpr
          ⟨fun c hc' => hxall c (List.mem_cons_of_mem _ hc'), hbxs.of_cons⟩
      rcases List.mem_cons.mp ha with h1 | h1
      · rw [h1] at heq ⊢
        exact ih x hsx x (List.mem_cons_self _ _) heq
      · rcases List.mem_cons.mp h1 with h2 | h2
        · rw [h2] at heq ⊢
          have hxb : f x ≤ f b := le_of_not_lt hc
          have hrx := pyMinKeyFold_le f xs x x (List.mem_cons_self _ _)
          have hxr : f x = f (pyMinKeyFold f x xs) :=
            le_antisymm (heq ▸ hxb) hrx
          exact le_trans (ih x hsx x (List.mem_cons_self _ _) hxr)
            (hxall b (List.mem_cons_self _ _))
        · exact ih x hsx a (List.mem_cons_of_mem _ h2) heq

theorem pyMaxFold_mem : ∀ (xs : List ℚ) (x : ℚ), pyMaxFold x xs ∈ x :: xs := by
  intro xs
  induction xs with
  | nil => intro x; simp [pyMaxFold]
  | cons a xs ih =>
    intro x
    rw [pyMaxFold_cons]
    by_cases hc : x < a
    · rw [if_pos hc]
      rcases List.mem_cons.mp (ih a) with h1 | h1
      · rw [h1]; exact List.mem_cons_of_mem _ (List.mem_cons_self _ _)
      · exact List.mem_cons_of_mem _ (List.mem_cons_of_mem _ h1)
    · rw [if_neg hc]
      rcases List.mem_cons.mp (ih x) with h1 | h1
      · rw [h1]; exact List.mem_cons_self _ _
      · exact List.mem_cons_of_mem _ (List.mem_cons_of_mem _ h1)

theorem pyMaxFold_ge : ∀ (xs : List ℚ) (x : ℚ), ∀ a ∈ x :: xs, a ≤ pyMaxFold x xs := by
  intro xs
  induction xs with
  | nil =>
    intro x a ha
    have hax : a = x := by simpa using ha
    rw [hax]
    simp [pyMaxFold]
  | cons b xs ih =>
    intro x a ha
    rw [pyMaxFold_cons]
    by_cases hc : x < b
    · rw [if_pos hc]
      rcases List.mem_cons.mp ha with h1 | h1
      · rw [h1]
        exact le_trans (le_of_lt hc) (ih b b (List.mem_cons_self _ _))
      · exact ih b a h1
    · rw [if_neg hc]
      rcases List.mem_cons.mp ha with h1 | h1
      · rw [h1]; exact ih x x (List.mem_cons_self _ _)
      · rcases List.mem_cons.mp h1 with h2 | h2
        · rw [h2]
          exact le_trans (le_of_not_lt hc) (ih x x (List.mem_cons_self _ _))
        · exact ih x a (List.mem_cons_of_mem _ h2)

/-- C1: `choose_best_price` returns `none` on an empty list; with a
last-known price it returns the amount at minimum absolute distance to it
(on a sorted input, ties go to the first, i.e. smallest, such amount);
otherwise with an expected price it applies the same rule against it;
otherwise it returns the maximum amount. -/
theorem C1_price_chooser_policy (amounts : List ℚ) (last expected : Option ℚ) :
    (amounts = [] → choose_best_price amounts last expected = none) ∧
    (amounts ≠ [] →
      (∀ lp, last = some lp →
        ∃ c, choose_best_price amounts last expected = some c ∧ c ∈ amounts ∧
          (∀ a ∈ amounts, |c - lp| ≤ |a - lp|) ∧
          (amounts.Sorted (· ≤ ·) → ∀ a ∈ amounts, |a - lp| = |c - lp| → c ≤ a)) ∧
      (last = none → ∀ e, expected = some e →
        ∃ c, choose_best_price amounts last expected = some c ∧ c ∈ amounts ∧
          (∀ a ∈ amounts, |c - e| ≤ |a - e|) ∧
          (amounts.Sorted (· ≤ ·) → ∀ a ∈ amounts, |a - e| = |c - e| → c ≤ a)) ∧
      (last = none → expected = none →
        ∃ c, choose_best_price amounts last expected = some c ∧ c ∈ amounts ∧
          ∀ a ∈ amounts, a ≤ c)) := by
  match amounts with
  | [] =>
    refine ⟨fun _ => rfl, fun h => absurd rfl h⟩
  | x :: xs =>
    refine ⟨fun h => absurd h (List.cons_ne_nil x xs), fun _ => ⟨?_, ?_, ?_⟩⟩
    · intro lp hlp
      refine ⟨pyMinKeyFold (fun y => |y - lp|) x xs, ?_, ?_, ?_, ?_⟩
      · simp [choose_best_price, hlp]
      · exact pyMinKeyFold_mem _ xs x
      · exact fun a ha => pyMinKeyFold_le (fun y => |y - lp|) xs x a ha
      · exact fun hs a ha heq => pyMinKeyFold_tie (fun y => |y - lp|) xs x hs a ha heq
    · intro hlast e he
      refine ⟨pyMinKeyFold (fun y => |y - e|) x xs, ?_, ?_, ?_, ?_⟩
      · simp [choose_best_price, hlast, he]
      · exact pyMinKeyFold_mem _ xs x
      · exact fun a ha => pyMinKeyFold_le (fun y => |y - e|) xs x a ha
      · exact fun hs a ha heq => pyMinKeyFold_tie (fun y => |y - e|) xs x hs a ha heq
    · intro hlast hexp
      refine ⟨pyMaxFold x xs, ?_, ?_, ?_⟩
      · simp [choose_best_price, hlast, hexp]
      · exact pyMaxFold_mem xs x
      · exact fun a ha => pyMaxFold_ge xs x a ha

/-- Witness for C1 at the spec's fallback-to-max law:
`last = none, expected = none, amounts = [45.00, 59.99, 120.00]`
yields the maximum, `120.00`. -/
theorem C1_price_chooser_policy_witness :
    ∃ c, choose_best_price [45, 5999/100, 120] none none = some c ∧
      c ∈ [(45 : ℚ), 5999/100, 120] ∧ ∀ a ∈ [(45 : ℚ), 5999/100, 120], a ≤ c :=
  ((C1_price_chooser_policy [45, 5999/100, 120] none none).2
    (List.cons_ne_nil _ _)).2.2 rfl rfl


/-! ## The change-detection tail of `main` -/

theorem targetAlerts_some (c t : ℚ) :
    targetAlerts c (some t) =
      if c ≤ t then [AlertReason.belowTarget c t] else [] := rfl

theorem dropAlerts_some (c lp thr : ℚ) :
    dropAlerts c (some lp) thr =
      if 0 < lp then
        if thr ≤ (lp - c) / lp * 100 then
          [AlertReason.priceDrop lp c ((lp - c) / lp * 100)]
        else []
      else [] := rfl

theorem runCheck_alerts_eq (state : MonitorState) (c : ℚ) (target : Option ℚ)
    (thr : ℚ) (ts : String) (ex : Bool) (amounts : List ℚ) (url : String) :
    (runCheck state (some c) target thr ts ex amounts url).alerts =
      targetAlerts c target ++ dropAlerts c state.last_price_gbp thr := rfl

theorem priceDrop_notMem_targetAlerts (c lp pct : ℚ) (target : Option ℚ) :
    AlertReason.priceDrop lp c pct ∉ targetAlerts c target := by
  intro h
  rcases target with _ | t
  · simp [targetAlerts] at h
  · rw [targetAlerts_some] at h
    by_cases hct : c ≤ t
    · rw [if_pos hct] at h; simp at h
    · rw [if_neg hct] at h; simp at h

theorem belowTarget_notMem_dropAlerts (c t thr : ℚ) (lastPrice : Option ℚ) :
    AlertReason.belowTarget c t ∉ dropAlerts c lastPrice thr := by
  intro h
  rcases lastPrice with _ | lp
  · simp [dropAlerts] at h
  · rw [dropAlerts_some] at h
    by_cases hpos : 0 < lp
    · rw [if_pos hpos] at h
      by_cases hthr : thr ≤ (lp - c) / lp * 100
      · rw [if_pos hthr] at h; simp at h
      · rw [if_neg hthr] at h; simp at h
    · rw [if_neg hpos] at h; simp at h

theorem mem_dropAlerts_iff (c thr lp pct : ℚ) (lastPrice : Option ℚ) :
    AlertReason.priceDrop lp c pct ∈ dropAlerts c lastPrice thr ↔
      lastPrice = some lp ∧ 0 < lp ∧ pct = (lp - c) / lp * 100 ∧ thr ≤ pct := by
  constructor
  · intro h
    rcases lastPrice with _ | lp0
    · simp [dropAlerts] at h
    · rw [dropAlerts_some] at h
      by_cases hpos : 0 < lp0
      · rw [if_pos hpos] at h
        by_cases hthr : thr ≤ (lp0 - c) / lp0 * 100
        · rw [if_pos hthr] at h
          have h' := List.mem_singleton.mp h
          rcases (AlertReason.priceDrop.injEq _ _ _ _ _ _).mp h' with ⟨h1, _, h2⟩
          subst h1; subst h2
          exact ⟨rfl, hpos, rfl, hthr⟩
        · rw [if_neg hthr] at h; simp at h
      · rw [if_neg hpos] at h; simp at h
  · rintro ⟨hsl, hpos, hpct, hthr⟩
    subst hsl
    rw [dropAlerts_some, if_pos hpos, if_pos (hpct ▸ hthr)]
    rw [hpct]
    exact List.mem_singleton.mpr rfl

/-- C9: for every prior state and non-null chosen price, the persisted state
becomes exactly `{last_price_gbp: chosen, last_checked_utc: ts}`, and the
run reaches the save normally (no `SystemExit`), regardless of targets,
thresholds and alerts. -/
theorem C9_state_overwritten (state : MonitorState) (c : ℚ) (target : Option ℚ)
    (thr : ℚ) (ts : String) (ex : Bool) (amounts : List ℚ) (url : String) :
    (runCheck state (some c) target thr ts ex amounts url).newState =
      { last_price_gbp := some c, last_checked_utc := some ts } ∧
    (runCheck state (some c) target thr ts ex amounts url).exitCode = none :=
  ⟨rfl, rfl⟩

/-- C3 counterexample: with a prior price of 50.00 and no chosen price the
check does not end non-fatally — it raises `SystemExit(2)` (modelled as
`exitCode = some 2`), contradicting "not a crash or raised error". -/
theorem C3_counterexample :
    (runCheck ⟨some 50, none⟩ none none 5 "t" true [] "u").exitCode = some 2 ∧
    (runCheck ⟨some 50, none⟩ none none 5 "t" true [] "u").exitCode ≠ none :=
  ⟨rfl, fun h => Option.noConfusion ((rfl :
    (runCheck ⟨some 50, none⟩ none none 5 "t" true [] "u").exitCode = some 2) ▸ h)⟩

/-- C3 amended: when the chosen price is null the check prints an error and
raises `SystemExit(2)` (a fatal, raised exit), evaluates no alert rule, and
the persisted state — in particular the last-known price — is unchanged. -/
theorem C3_undetected_exit_preserves_state (state : MonitorState)
    (target : Option ℚ) (thr : ℚ) (ts : String) (ex : Bool)
    (amounts : List ℚ) (url : String) :
    (runCheck state none target thr ts ex amounts url).exitCode = some 2 ∧
    (runCheck state none target thr ts ex amounts url).alerts = [] ∧
    (runCheck state none target thr ts ex amounts url).newState = state ∧
    (runCheck state none target thr ts ex amounts url).newState.last_price_gbp =
      state.last_price_gbp :=
  ⟨rfl, rfl, rfl, rfl⟩

/-- C6 counterexample: with threshold `-10` (accepted by `--drop-pct`), a
price increase from 100.00 to 110.00 has `drop_pct = -10 ≥ -10` and the
`PriceDrop` alert fires, contradicting "a price increase never fires". -/
theorem C6_counterexample :
    AlertReason.priceDrop 100 110 (-10) ∈
      (runCheck ⟨some 100, none⟩ (some 110) none (-10) "t" true [] "u").alerts ∧
    (100 : ℚ) < 110 := by
  refine ⟨?_, by norm_num⟩
  rw [runCheck_alerts_eq]
  refine List.mem_append.mpr (Or.inr ?_)
  exact (mem_dropAlerts_iff 110 (-10) 100 (-10) (some 100)).mpr
    ⟨rfl, by norm_num, by norm_num, by norm_num⟩

/-- C6 amended: for a non-null chosen price, `PriceDrop prior chosen pct`
fires iff a prior price is stored, it is strictly positive,
`pct = (prior - chosen)/prior*100` and `pct ≥` the threshold; a price
increase yields a negative `pct`, and — provided the configured threshold
is non-negative, as the default 5.0 is — never fires. -/
theorem C6_price_drop_rule (state : MonitorState) (c : ℚ) (target : Option ℚ)
    (thr : ℚ) (ts : String) (ex : Bool) (amounts : List ℚ) (url : String) :
    (∀ lp pct,
      AlertReason.priceDrop lp c pct ∈
          (runCheck state (some c) target thr ts ex amounts url).alerts ↔
        state.last_price_gbp = some lp ∧ 0 < lp ∧
          pct = (lp - c) / lp * 100 ∧ thr ≤ pct) ∧
    (∀ lp, 0 < lp → lp < c → (lp - c) / lp * 100 < 0) ∧
    (0 ≤ thr → ∀ lp pct, lp < c →
      AlertReason.priceDrop lp c pct ∉
        (runCheck state (some c) target thr ts ex amounts url).alerts) := by
  have hneg : ∀ lp : ℚ, 0 < lp → lp < c → (lp - c) / lp * 100 < 0 := by
    intro lp hpos hlt
    have h1 : lp - c < 0 := by linarith
    have h2 : (lp - c) / lp < 0 := div_neg_of_neg_of_pos h1 hpos
    have h3 : (0 : ℚ) < 100 := by norm_num
    exact mul_neg_of_neg_of_pos h2 h3
  have hmem : ∀ lp pct,
      AlertReason.priceDrop lp c pct ∈
          (runCheck state (some c) target thr ts ex amounts url).alerts ↔
        state.last_price_gbp = some lp ∧ 0 < lp ∧
          pct = (lp - c) / lp * 100 ∧ thr ≤ pct := by
    intro lp pct
    rw [runCheck_alerts_eq, List.mem_append]
    constructor
    · intro h
      rcases h with h | h
      · exact absurd h (priceDrop_notMem_targetAlerts c lp pct target)
      · exact (mem_dropAlerts_iff c thr lp pct state.last_price_gbp).mp h
    · intro h
      exact Or.inr ((mem_dropAlerts_iff c thr lp pct state.last_price_gbp).mpr h)
  refine ⟨hmem, hneg, ?_⟩
  intro hthr lp pct hlt h
  rcases (hmem lp pct).mp h with ⟨_, hpos, hpct, hthr'⟩
  have := hneg lp hpos hlt
  rw [← hpct] at this
  linarith

/-- Witness for C6 at the spec's drop law:
`prior = 100.00, chosen = 92.00, threshold = 5.0` makes
`PriceDrop(100, 92, 8.0)` fire. -/
theorem C6_price_drop_rule_witness :
    AlertReason.priceDrop 100 92 8 ∈
      (runCheck ⟨some 100, none⟩ (some 92) none 5 "t" true [] "u").alerts :=
  ((C6_price_drop_rule ⟨some 100, none⟩ 92 none 5 "t" true [] "u").1 100 8).mpr
    ⟨rfl, by norm_num, by norm_num, by norm_num⟩

/-- C7: for a non-null chosen price, `BelowTarget chosen target` fires iff a
target is set and `chosen ≤ target` (boundary inclusive), with no
dependence on the prior state or the drop threshold (both are universally
quantified); the last conjunct shows a check in which `BelowTarget` and
`PriceDrop` both fire. -/
theorem C7_below_target_rule (state : MonitorState) (c : ℚ) (target : Option ℚ)
    (thr : ℚ) (ts : String) (ex : Bool) (amounts : List ℚ) (url : String) :
    (∀ t, target = some t →
      (AlertReason.belowTarget c t ∈
          (runCheck state (some c) target thr ts ex amounts url).alerts ↔
        c ≤ t)) ∧
    (target = none → ∀ t,
      AlertReason.belowTarget c t ∉
        (runCheck state (some c) target thr ts ex amounts url).alerts) ∧
    (runCheck ⟨some 100, none⟩ (some 92) (some 95) 5 "x" true [] "y").alerts =
      [AlertReason.belowTarget 92 95, AlertReason.priceDrop 100 92 8] := by
  refine ⟨?_, ?_, ?_⟩
  · intro t ht
    subst ht
    rw [runCheck_alerts_eq, List.mem_append]
    constructor
    · intro h
      rcases h with h | h
      · rw [targetAlerts_some] at h
        by_cases hct : c ≤ t
        · exact hct
        · rw [if_neg hct] at h; simp at h
      · exact absurd h (belowTarget_notMem_dropAlerts c t thr _)
    · intro hct
      refine Or.inl ?_
      rw [targetAlerts_some, if_pos hct]
      exact List.mem_singleton.mpr rfl
  · intro ht t h
    subst ht
    rw [runCheck_alerts_eq, List.mem_append] at h
    rcases h with h | h
    · simp [targetAlerts] at h
    · exact absurd h (belowTarget_notMem_dropAlerts c t thr _)
  · rw [runCheck_alerts_eq]
    have h1 : targetAlerts 92 (some 95) = [AlertReason.belowTarget 92 95] := by
      rw [targetAlerts_some, if_pos (by norm_num : (92 : ℚ) ≤ 95)]
    have h8 : ((100 : ℚ) - 92) / 100 * 100 = 8 := by norm_num
    have h2 : dropAlerts 92 (some 100) 5 = [AlertReason.priceDrop 100 92 8] := by
      rw [dropAlerts_some, if_pos (by norm_num : (0 : ℚ) < 100),
        if_pos (by rw [h8]; norm_num), h8]
    rw [show (⟨some 100, none⟩ : MonitorState).last_price_gbp = some 100 from rfl,
      h1, h2]
    rfl

/-- Witness for C7 at the spec's boundary law: `target = 90.00,
chosen = 90.00` fires `BelowTarget` (boundary inclusive). -/
theorem C7_below_target_rule_witness :
    AlertReason.belowTarget 90 90 ∈
      (runCheck ⟨none, none⟩ (some 90) (some 90) 5 "t" true [] "u").alerts :=
  ((C7_below_target_rule ⟨none, none⟩ 90 (some 90) 5 "t" true [] "u").1 90
    rfl).mpr (le_refl 90)

/-! ## Rate-button extraction -/

theorem findMatches_nil : findMatches [] = [] := by
  rw [findMatches]

theorem extract_gbp_amounts_empty : extract_gbp_amounts (some []) = [] := by
  simp [extract_gbp_amounts, gbpRawValues, findMatches_nil, sorted_round_set]

theorem textStrategy_empty : textStrategy [] = none := by
  simp [textStrategy, extract_gbp_amounts_empty, pyMaxList]

/-- C4: the split extraction succeeds iff both sub-spans exist and their
stripped texts consist solely of digits, yielding `integer.fraction`; and
whenever it succeeds its value is the function's result, regardless of what
amounts the rendered text or raw markup contain. -/
theorem C4_split_strategy_precedence (btn : Candidate) :
    (∀ v, splitStrategy btn = some v ↔
      ∃ i d, btn.rateInt = some i ∧ btn.rateDec = some d ∧
        pyIsDigit (pyStrip i) = true ∧ pyIsDigit (pyStrip d) = true ∧
        v = splitValue (pyStrip i) (pyStrip d)) ∧
    (∀ v, splitStrategy btn = some v →
      extract_price_from_rate_button btn = some v) := by
  constructor
  · intro v
    constructor
    · intro h
      rcases hri : btn.rateInt with _ | i <;> rcases hrd : btn.rateDec with _ | d <;>
        simp [splitStrategy, hri, hrd] at h
      exact ⟨i, d, by simp [hri], by simp [hrd], h.1.1, h.1.2, h.2.symm⟩
    · rintro ⟨i, d, hri, hrd, hdi, hdd, hv⟩
      simp [splitStrategy, hri, hrd, hdi, hdd, hv]
  · intro v h
    simp [extract_price_from_rate_button, h]

/-- Witness for C4: a button with split spans `92` / `50` resolves to
`92.50` even though its rendered text shows the different, larger amount
`£199.00`. -/
theorem C4_split_strategy_precedence_witness :
    extract_price_from_rate_button
      ⟨some "92".data, some "50".data, "£199.00 total".data, "x".data⟩ =
      some (185/2) := by
  apply (C4_split_strategy_precedence _).2
  apply ((C4_split_strategy_precedence _).1 _).mpr
  refine ⟨"92".data, "50".data, rfl, rfl, by decide, by decide, ?_⟩
  have h1 : pyStrip "92".data = ['9', '2'] := rfl
  have h2 : pyStrip "50".data = ['5', '0'] := rfl
  rw [h1, h2]
  simp only [splitValue]
  norm_num [show natFromDigits ['9', '2'] = 92 from rfl,
    show natFromDigits ['5', '0'] = 50 from rfl]

/-- C5 counterexample: with two SAVER buttons on the page — the first
yielding nothing from any strategy, the second carrying valid split spans
`92`/`50` — the live resolver returns `none`, while the resolver the spec
describes (first non-null result over all candidates in order) returns
`92.50`. -/
theorem C5_counterexample :
    find_saver_rate_price
        [⟨none, none, [], []⟩, ⟨some "92".data, some "50".data, [], []⟩] =
      none ∧
    resolverSpecOrder
        [⟨none, none, [], []⟩, ⟨some "92".data, some "50".data, [], []⟩] =
      some (185/2) := by
  have hbad : extract_price_from_rate_button ⟨none, none, [], []⟩ = none := by
    have hsplit : splitStrategy ⟨none, none, [], []⟩ = none := rfl
    simp [extract_price_from_rate_button, hsplit, textStrategy_empty]
  constructor
  · show extract_price_from_rate_button ⟨none, none, [], []⟩ = none
    exact hbad
  · have hgood : extract_price_from_rate_button
        ⟨some "92".data, some "50".data, [], []⟩ =
        some (splitValue ['9', '2'] ['5', '0']) := rfl
    have hv : splitValue ['9', '2'] ['5', '0'] = 185/2 := by
      simp only [splitValue]
      norm_num [show natFromDigits ['9', '2'] = 92 from rfl,
        show natFromDigits ['5', '0'] = 50 from rfl]
    simp [resolverSpecOrder, hbad, hgood, hv]

/-- C5 amended: the live resolver consults only the first SAVER candidate:
it returns `none` when there is no candidate, returns exactly the first
candidate's three-strategy result otherwise, and its output never depends
on the candidates after the first. -/
theorem C5_first_candidate_only (b : Candidate) (l l2 : List Candidate) :
    find_saver_rate_price [] = none ∧
    find_saver_rate_price (b :: l) = extract_price_from_rate_button b ∧
    find_saver_rate_price (b :: l) = find_saver_rate_price (b :: l2) :=
  ⟨rfl, rfl, rfl⟩

/-! ## The amount scanner -/

theorem space_ne_pound {c : Char} (h : isPySpace c = true) : c ≠ '£' := by
  intro he
  rw [he] at h
  exact absurd h (by decide)

theorem digit_ne_pound {c : Char} (h : c.isDigit = true) : c ≠ '£' := by
  intro he
  rw [he] at h
  exact absurd h (by decide)

theorem digit_ne_dot {c : Char} (h : c.isDigit = true) : c ≠ '.' := by
  intro he
  rw [he] at h
  exact absurd h (by decide)

theorem digit_not_space {c : Char} (h : c.isDigit = true) : isPySpace c = false := by
  cases hx : isPySpace c
  · rfl
  · exfalso
    simp only [isPySpace, Bool.or_eq_true, beq_iff_eq] at hx
    rcases hx with ((((h1 | h1) | h1) | h1) | h1) | h1 <;> subst h1 <;>
      exact absurd h (by decide)

theorem take_length_takeWhile (p : Char → Bool) (l : List Char) :
    l.take (l.takeWhile p).length = l.takeWhile p := by
  induction l with
  | nil => rfl
  | cons c l ih =>
    by_cases hc : p c
    · simp [List.takeWhile_cons, hc, List.take, ih]
    · simp [List.takeWhile_cons, hc]

theorem fracTail_eq_some {l : List Char} {a b : Char} (h : fracTail l = some (a, b)) :
    l.take 3 = ['.', a, b] ∧ a.isDigit = true ∧ b.isDigit = true := by
  match l with
  | [] => exact absurd h Option.noConfusion
  | [c] => exact absurd h Option.noConfusion
  | [c, x] => exact absurd h Option.noConfusion
  | c :: x :: y :: rest =>
    by_cases hcond : c = '.' ∧ x.isDigit ∧ y.isDigit
    · rw [show fracTail (c :: x :: y :: rest) =
        (if c = '.' ∧ x.isDigit ∧ y.isDigit then some (x, y) else none) from rfl,
        if_pos hcond] at h
      injection h with h'
      rcases Prod.mk.injEq .. ▸ h' with h''
      have hx : x = a := congrArg Prod.fst h'
      have hy : y = b := congrArg Prod.snd h'
      subst hx; subst hy
      rcases hcond with ⟨hc, hx', hy'⟩
      subst hc
      exact ⟨rfl, hx', hy'⟩
    · rw [show fracTail (c :: x :: y :: rest) =
        (if c = '.' ∧ x.isDigit ∧ y.isDigit then some (x, y) else none) from rfl,
        if_neg hcond] at h
      exact absurd h Option.noConfusion

theorem fracTail_cons_ne_dot {c : Char} (l : List Char) (h : c ≠ '.') :
    fracTail (c :: l) = none := by
  match l with
  | [] => rfl
  | [x] => rfl
  | x :: y :: rest =>
    rw [show fracTail (c :: x :: y :: rest) =
      (if c = '.' ∧ x.isDigit ∧ y.isDigit then some (x, y) else none) from rfl,
      if_neg (fun hc => h hc.1)]

/-- The span a successful `GBP_RE` attempt consumes after its `£` contains
no further `£`: every consumed character is whitespace, a digit, or the
decimal dot. -/
theorem matchAfterPound_no_pound (cs g : List Char) (k : ℕ)
    (h : matchAfterPound cs = some (g, k)) : '£' ∉ cs.take k := by
  unfold matchAfterPound at h
  by_cases hde :
      (((cs.dropWhile isPySpace).take 5).takeWhile Char.isDigit).isEmpty
  · rw [if_pos hde] at h
    exact absurd h Option.noConfusion
  · rw [if_neg hde] at h
    set sp := cs.takeWhile isPySpace with hsp
    set cs1 := cs.dropWhile isPySpace with hcs1
    set ds := (cs1.take 5).takeWhile Char.isDigit with hds
    have hcs : sp ++ cs1 = cs := List.takeWhile_append_dropWhile isPySpace cs
    have hsp_mem : ∀ x ∈ sp, isPySpace x = true := fun x hx =>
      List.mem_takeWhile_imp hx
    have hds_mem : ∀ x ∈ ds, x.isDigit = true := fun x hx =>
      List.mem_takeWhile_imp hx
    have hlen5 : ds.length ≤ 5 :=
      le_trans (List.takeWhile_sublist _).length_le (List.length_take_le _ _)
    have hds_take : cs1.take ds.length = ds := by
      have h1 := take_length_takeWhile Char.isDigit (cs1.take 5)
      rw [List.take_take, min_eq_left hlen5] at h1
      exact h1
    cases hft : fracTail (cs1.drop ds.length) with
    | none =>
      rw [hft] at h
      injection h with h'
      have hk : k = sp.length + ds.length := (congrArg Prod.snd h').symm
      have hg : g = ds := (congrArg Prod.fst h').symm
      subst hk
      intro hmem
      rw [← hcs, List.take_append_eq_append_take] at hmem
      rcases List.mem_append.mp hmem with hx | hx
      · have := hsp_mem '£' (List.mem_of_mem_take hx)
        exact absurd this (by decide)
      · rw [show sp.length + ds.length - sp.length = ds.length by omega,
          hds_take] at hx
        exact absurd (hds_mem '£' hx) (by decide)
    | some ab =>
      obtain ⟨a, b⟩ := ab
      rw [hft] at h
      injection h with h'
      have hk : k = sp.length + ds.length + 3 := (congrArg Prod.snd h').symm
      obtain ⟨htake3, hda, hdb⟩ := fracTail_eq_some hft
      subst hk
      intro hmem
      rw [← hcs, List.take_append_eq_append_take] at hmem
      rcases List.mem_append.mp hmem with hx | hx
      · have := hsp_mem '£' (List.mem_of_mem_take hx)
        exact absurd this (by decide)
      · rw [show sp.length + ds.length + 3 - sp.length = ds.length + 3 by omega,
          List.take_add, hds_take, htake3] at hx
        rcases List.mem_append.mp hx with hy | hy
        · exact absurd (hds_mem '£' hy) (by decide)
        · simp only [List.mem_cons, List.not_mem_nil, or_false] at hy
          rcases hy with hy | hy | hy
          · exact absurd hy (by decide)
          · rw [← hy] at hda
            exact absurd hda (by decide)
          · rw [← hy] at hdb
            exact absurd hdb (by decide)

/-- If a `GBP_RE` attempt succeeds right after some `£`, the left-to-right
non-overlapping scan reports its group, whatever text precedes the `£`:
earlier matches cannot consume past that `£` since a consumed span contains
no `£`. -/
theorem pound_mem_findMatches (rest g : List Char) (k : ℕ)
    (h : matchAfterPound rest = some (g, k)) :
    ∀ pre : List Char, g ∈ findMatches (pre ++ '£' :: rest) := by
  have hbase : g ∈ findMatches ('£' :: rest) := by
    rw [findMatches, if_pos rfl, h]
    exact List.mem_cons_self _ _
  suffices H : ∀ n (pre : List Char), pre.length ≤ n →
      g ∈ findMatches (pre ++ '£' :: rest) from
    fun pre => H pre.length pre (le_refl _)
  intro n
  induction n with
  | zero =>
    intro pre hlen
    have hp : pre = [] := List.length_eq_zero.mp (Nat.le_zero.mp hlen)
    subst hp
    simpa using hbase
  | succ n ih =>
    intro pre hlen
    cases pre with
    | nil => simpa using hbase
    | cons c pre2 =>
      rw [List.cons_append, findMatches]
      by_cases hc : c = '£'
      · rw [if_pos hc]
        cases hm : matchAfterPound (pre2 ++ '£' :: rest) with
        | none =>
          exact ih pre2 (Nat.le_of_succ_le_succ (by simpa using hlen))
        | some gk =>
          obtain ⟨g2, k2⟩ := gk
          have hk2 : k2 ≤ pre2.length := by
            by_contra hgt
            push_neg at hgt
            apply matchAfterPound_no_pound _ _ _ hm
            rw [List.take_append_eq_append_take]
            refine List.mem_append.mpr (Or.inr ?_)
            obtain ⟨m, hm'⟩ : ∃ m, k2 - pre2.length = m + 1 :=
              ⟨k2 - pre2.length - 1, by omega⟩
            rw [hm', List.take_succ_cons]
            exact List.mem_cons_self _ _
          have hdrop : (pre2 ++ '£' :: rest).drop k2 =
              pre2.drop k2 ++ '£' :: rest :=
            List.drop_append_of_le_length hk2
          show g ∈ g2 :: findMatches ((pre2 ++ '£' :: rest).drop k2)
          rw [hdrop]
          refine List.mem_cons_of_mem _ ?_
          apply ih (pre2.drop k2)
          have hd : (pre2.drop k2).length ≤ pre2.length := by
            rw [List.length_drop]; omega
          have hp2 : pre2.length ≤ n := Nat.le_of_succ_le_succ (by simpa using hlen)
          omega
      · rw [if_neg hc]
        exact ih pre2 (Nat.le_of_succ_le_succ (by simpa using hlen))

/-- `GBP_RE` right after a `£` followed by six or more digits: the greedy
quantifier captures exactly the first five digits, and the optional decimal
tail fails on the sixth digit. -/
theorem matchAfterPound_digit_run (d1 d2 d3 d4 d5 d6 : Char)
    (suffix : List Char) (h1 : d1.isDigit = true) (h2 : d2.isDigit = true)
    (h3 : d3.isDigit = true) (h4 : d4.isDigit = true) (h5 : d5.isDigit = true)
    (h6 : d6.isDigit = true) :
    matchAfterPound (d1 :: d2 :: d3 :: d4 :: d5 :: d6 :: suffix) =
      some ([d1, d2, d3, d4, d5], 5) := by
  have hns1 : isPySpace d1 = false := digit_not_space h1
  have htw : (d1 :: d2 :: d3 :: d4 :: d5 :: d6 :: suffix).takeWhile isPySpace
      = [] := by
    simp [List.takeWhile_cons, hns1]
  have hdw : (d1 :: d2 :: d3 :: d4 :: d5 :: d6 :: suffix).dropWhile isPySpace
      = d1 :: d2 :: d3 :: d4 :: d5 :: d6 :: suffix := by
    simp [List.dropWhile_cons, hns1]
  have htk : (d1 :: d2 :: d3 :: d4 :: d5 :: d6 :: suffix).take 5
      = [d1, d2, d3, d4, d5] := rfl
  have hds : ([d1, d2, d3, d4, d5]).takeWhile Char.isDigit
      = [d1, d2, d3, d4, d5] := by
    simp [List.takeWhile_cons, h1, h2, h3, h4, h5]
  have hlen : ([d1, d2, d3, d4, d5] : List Char).length = 5 := rfl
  have hdr : (d1 :: d2 :: d3 :: d4 :: d5 :: d6 :: suffix).drop 5
      = d6 :: suffix := rfl
  have hft : fracTail (d6 :: suffix) = none :=
    fracTail_cons_ne_dot suffix (digit_ne_dot h6)
  simp only [matchAfterPound]
  rw [hdw, htk, hds, hlen, hdr, hft, htw]
  rfl

theorem roundHalfEven_intCast (m : ℤ) : roundHalfEven (m : ℚ) = m := by
  simp [roundHalfEven]

theorem round2_natCast (n : ℕ) : round2 (n : ℚ) = n := by
  unfold round2
  have hcast : ((n : ℚ) * 100) = ((n * 100 : ℤ) : ℚ) := by push_cast; ring
  rw [hcast, roundHalfEven_intCast]
  push_cast
  rw [mul_div_assoc]
  norm_num

theorem sorted_round_set_sorted (l : List ℚ) :
    (sorted_round_set l).Sorted (· < ·) := by
  have hs : (sorted_round_set l).Sorted (· ≤ ·) :=
    List.sorted_insertionSort _ _
  have hperm : List.Perm (List.insertionSort (· ≤ ·) ((l.map round2).dedup))
      ((l.map round2).dedup) := List.perm_insertionSort _ _
  have hnd : (sorted_round_set l).Nodup :=
    hperm.nodup_iff.mpr (List.nodup_dedup _)
  exact List.Pairwise.imp (fun h => lt_of_le_of_ne h.1 h.2)
    (List.Pairwise.and hs hnd)

theorem mem_sorted_round_set (l : List ℚ) (v : ℚ) :
    v ∈ sorted_round_set l ↔ ∃ r ∈ l, round2 r = v := by
  unfold sorted_round_set
  rw [(List.perm_insertionSort _ _).mem_iff, List.mem_dedup, List.mem_map]

/-- C2: for every (possibly null) input text, `extract_gbp_amounts` returns
a strictly ascending (hence deduplicated) list whose members are exactly
the two-decimal roundings of the values of the `GBP_RE` matches that parse
as numbers; null or empty text yields the empty list. -/
theorem C2_amount_scanner (text : Option (List Char)) :
    (extract_gbp_amounts text).Sorted (· < ·) ∧
    (∀ v, v ∈ extract_gbp_amounts text ↔
      ∃ r ∈ gbpRawValues (text.getD []), round2 r = v) ∧
    extract_gbp_amounts none = [] ∧
    extract_gbp_amounts (some []) = [] :=
  ⟨sorted_round_set_sorted _, fun v => mem_sorted_round_set _ v,
    extract_gbp_amounts_empty, extract_gbp_amounts_empty⟩

/-- C10: a `£` followed by six or more consecutive digits is not rejected:
the scanner reports the amount formed by the first five digits of the run
(e.g. `£123456` contributes `12345`), for any surrounding text. -/
theorem C10_six_digit_truncation (pre suffix : List Char)
    (d1 d2 d3 d4 d5 d6 : Char) (h1 : d1.isDigit = true)
    (h2 : d2.isDigit = true) (h3 : d3.isDigit = true) (h4 : d4.isDigit = true)
    (h5 : d5.isDigit = true) (h6 : d6.isDigit = true) :
    (natFromDigits [d1, d2, d3, d4, d5] : ℚ) ∈
      extract_gbp_amounts
        (some (pre ++ '£' :: d1 :: d2 :: d3 :: d4 :: d5 :: d6 :: suffix)) := by
  have hmp := matchAfterPound_digit_run d1 d2 d3 d4 d5 d6 suffix h1 h2 h3 h4 h5 h6
  have hg : [d1, d2, d3, d4, d5] ∈
      findMatches (pre ++ '£' :: d1 :: d2 :: d3 :: d4 :: d5 :: d6 :: suffix) :=
    pound_mem_findMatches _ _ _ hmp pre
  have hpf : pyFloat? [d1, d2, d3, d4, d5] =
      some ((natFromDigits [d1, d2, d3, d4, d5] : ℕ) : ℚ) := by
    simp [pyFloat?, List.takeWhile_cons, List.dropWhile_cons,
      digit_ne_dot h1, digit_ne_dot h2, digit_ne_dot h3, digit_ne_dot h4,
      digit_ne_dot h5, h1, h2, h3, h4, h5]
  have hraw : ((natFromDigits [d1, d2, d3, d4, d5] : ℕ) : ℚ) ∈
      gbpRawValues (pre ++ '£' :: d1 :: d2 :: d3 :: d4 :: d5 :: d6 :: suffix) :=
    List.mem_filterMap.mpr ⟨[d1, d2, d3, d4, d5], hg, hpf⟩
  exact (mem_sorted_round_set _ _).mpr ⟨_, hraw, round2_natCast _⟩

/-- Witness for C10 at the text `£123456`: the scanner output contains
`12345` (the first five digits), so the over-long amount is truncated, not
omitted. -/
theorem C10_six_digit_truncation_witness :
    (12345 : ℚ) ∈ extract_gbp_amounts (some "£123456".data) := by
  have h := C10_six_digit_truncation [] [] '1' '2' '3' '4' '5' '6'
    (by decide) (by decide) (by decide) (by decide) (by decide) (by decide)
  have hn : (natFromDigits ['1', '2', '3', '4', '5'] : ℕ) = 12345 := rfl
  rw [hn] at h
  have hs : "£123456".data =
      ([] : List Char) ++ '£' :: '1' :: '2' :: '3' :: '4' :: '5' :: '6' :: [] := rfl
  rw [hs]
  exact_mod_cast h

/-! ## The history record -/

theorem fmt2_of_int (q : ℚ) (m : ℤ) (h : q * 100 = (m : ℚ)) :
    fmt2 q = String.mk ((if m < 0 then ['-'] else []) ++
      natStr (m.natAbs / 100) ++ '.' :: pad2 (m.natAbs % 100)) := by
  unfold fmt2
  rw [h, roundHalfEven_intCast]

theorem fmt2_ne_empty (q : ℚ) : fmt2 q ≠ "" := by
  unfold fmt2
  intro h
  have hd := congrArg String.data h
  simp at hd

/-- C8 counterexample: a concrete check appends exactly one data row, and
that row has four fields — timestamp, price, amount list, URL — with no
resolution-source-tag field anywhere, so the claimed five-field record
shape is wrong. -/
theorem C8_counterexample :
    append_history true "T" (some (185/2)) [45, 185/2] "U" =
      [["T", "92.50", "45.00,92.50", "U"]] ∧
    (["T", "92.50", "45.00,92.50", "U"] : List String).length = 4 := by
  have h1 : fmt2 (185/2) = "92.50" := by
    rw [fmt2_of_int (185/2) 9250 (by norm_num)]; rfl
  have h2 : fmt2 45 = "45.00" := by
    rw [fmt2_of_int 45 4500 (by norm_num)]; rfl
  refine ⟨?_, rfl⟩
  simp [append_history, fmtPrice, h1, h2]
  rfl

/-- C8 amended: every check appends to the CSV exactly one data row (plus
the header row when the file is new) whose four fields are the ISO
timestamp, the chosen price rendered to two decimals (empty exactly when
the price is null), the comma-joined two-decimal amount list, and the URL;
no resolution source tag is recorded.  The amount list `main` passes is the
`fetch_price` post-processing, which is always strictly ascending. -/
theorem C8_history_row (state : MonitorState) (chosen : Option ℚ)
    (target : Option ℚ) (thr : ℚ) (ts : String) (ex : Bool)
    (amounts : List ℚ) (url : String) :
    (runCheck state chosen target thr ts ex amounts url).historyRows =
      append_history ex ts chosen amounts url ∧
    (append_history ex ts chosen amounts url).getLast? =
      some [ts, fmtPrice chosen,
        String.intercalate "," (amounts.map fmt2), url] ∧
    (append_history ex ts chosen amounts url).length = (if ex then 1 else 2) ∧
    (append_history ex ts chosen amounts url).all
      (fun r => r.length == 4) = true ∧
    (fmtPrice chosen = "" ↔ chosen = none) ∧
    (∀ bodyText content : List Char,
      (fetchAmounts bodyText content).Sorted (· < ·)) := by
  refine ⟨?_, ?_, ?_, ?_, ?_, fun bodyText content => sorted_round_set_sorted _⟩
  · cases chosen <;> rfl
  · cases ex <;> rfl
  · cases ex <;> rfl
  · cases ex <;> rfl
  · cases chosen with
    | none => simp [fmtPrice]
    | some q =>
      constructor
      · intro h
        exact absurd h (fmt2_ne_empty q)
      · intro h
        exact Option.noConfusion h
